import Mathlib

/-!
Shallow embedding of the Postman-collection import/export converter
(`internal/service/collection_service.go` and the entity types in
`internal/models`) together with proofs of the specified properties.

JSON values are modelled by the inductive `Json` (numbers as `Int`; no claim
depends on float formatting).  Go's `map[string]any` (`models.JSONMap`) is
modelled as an association list `List (String × Json)` whose entries are kept
in insertion order; Go's `map[string]string` likewise as
`List (String × String)`.  Go map iteration order is unspecified, so every
property proved below about data built from a map is order-insensitive, and
the association-list model fixes first-insertion order only to stay
executable.  Fields of the Go structs that no verified property mentions
(request body, auth, events, responses, params, collection variables, events
and auth, response/event/variable lists on items) are omitted from the
embedding; they are carried through the converter without interaction with
the properties below.
-/

inductive Json : Type where
  | null : Json
  | bool : Bool → Json
  | num : Int → Json
  | str : String → Json
  | arr : List Json → Json
  | obj : List (String × Json) → Json
deriving Repr

/-- models.KeyValuePair (the `key`/`value` fields; `description`, `type`,
`disabled`, `name` are omitted as unused by the service code under proof). -/
structure KeyValuePair where
  key : String
  value : String
deriving Repr, DecidableEq

/-- models.PostmanRequest: `url` is Go type `any` (a decoded JSON value),
`method` a string, `header` a key-value list. -/
structure PostmanRequest where
  url : Json
  method : String
  header : List KeyValuePair
deriving Repr

/-- models.PostmanItem: a tree node of the exchange document.  Fields
`name`, `description`, nested `item` list, optional `request`, external id. -/
inductive PostmanItem : Type where
  | mk : String → String → List PostmanItem → Option PostmanRequest → String → PostmanItem
deriving Repr

def PostmanItem.name : PostmanItem → String
  | .mk n _ _ _ _ => n

def PostmanItem.description : PostmanItem → String
  | .mk _ d _ _ _ => d

def PostmanItem.item : PostmanItem → List PostmanItem
  | .mk _ _ l _ _ => l

def PostmanItem.request : PostmanItem → Option PostmanRequest
  | .mk _ _ _ r _ => r

def PostmanItem.postmanID : PostmanItem → String
  | .mk _ _ _ _ p => p

/-- models.CollectionInfo (the fields the service reads/writes). -/
structure CollectionInfo where
  name : String
  description : String
  schema : String
  postmanID : String
  exporterID : String
deriving Repr

/-- models.PostmanCollection (info, item tree, top-level schema; variable,
auth and event lists omitted as unused by the properties proved here). -/
structure PostmanCollection where
  info : CollectionInfo
  item : List PostmanItem
  schema : String
deriving Repr

/-- models.Collection, the persisted collection record.  `items` is the
JSONMap-typed cached copy of the original item tree (a string-keyed map). -/
structure Collection where
  name : String
  description : String
  schema : String
  items : List (String × Json)
  postmanID : String
  exporterID : String
deriving Repr

/-- models.Request, the persisted flat request record.  `url` is JSONMap
(always a map value, never absent, matching the Go field type), `headers`
is `map[string]string` which is `nil` (`none`) when the exchange request
had no header list. -/
structure Request where
  collectionID : Nat
  name : String
  description : String
  folderPath : String
  url : List (String × Json)
  method : String
  headers : Option (List (String × String))
  postmanID : String
deriving Repr

/-- Go `headers[kv.Key] = kv.Value` on a `map[string]string`: replace the
value at an existing key (keeping its insertion position) or append a new
entry. -/
def mapInsert (m : List (String × String)) (k v : String) : List (String × String) :=
  match m with
  | [] => [(k, v)]
  | (k', v') :: rest => if k' == k then (k, v) :: rest else (k', v') :: mapInsert rest k v

/-- collection_service.go lines 212-218: the headers map is built only when
the header list is non-empty (otherwise the `Headers` field stays `nil`),
inserting each pair in list order. -/
def buildHeaders (l : List KeyValuePair) : Option (List (String × String)) :=
  if l.isEmpty then none
  else some (l.foldl (fun m kv => mapInsert m kv.key kv.value) [])

/-- Result of `json.Unmarshal(bytes, &m)` for `m : models.JSONMap` starting
out `nil`, where `bytes` is the encoding of the given JSON value: `none`
means the unmarshal returns an error (the target of a non-object,
non-null value is not a map); `some none` means it succeeds as a no-op on
JSON `null`, leaving the map `nil`; `some (some fields)` means the object
decodes into the map. -/
def goUnmarshalMap : Json → Option (Option (List (String × Json)))
  | .null => some none
  | .obj fields => some (some fields)
  | _ => none

/-- collection_service.go lines 184-208: URL normalization.  A non-empty
bare string becomes `{"raw": s}`; an empty string the empty map; any other
value is re-encoded and decoded into a JSONMap (an error leaves the empty
map); a still-`nil` map (JSON `null` input) is replaced by the empty map. -/
def normalizeRequestURL (u : Json) : List (String × Json) :=
  match u with
  | .str v => if v != "" then [("raw", Json.str v)] else []
  | _ =>
    match goUnmarshalMap u with
    | none => []
    | some none => []
    | some (some fields) => fields

/-- collection_service.go lines 175-218: the flat record built for one leaf
item (fields carried by the embedding). -/
def mkRequestRecord (cid : Nat) (name desc parentPath : String)
    (req : PostmanRequest) (pid : String) : Request :=
  { collectionID := cid, name := name, description := desc, folderPath := parentPath
    url := normalizeRequestURL req.url, method := req.method
    headers := buildHeaders req.header, postmanID := pid }

/-- collection_service.go lines 158-162: `currentPath := parentPath;
if currentPath != "" { currentPath += "/" }; currentPath += item.Name`. -/
def pathStep (parentPath name : String) : String :=
  if parentPath == "" then name else parentPath ++ "/" ++ name

/-- The sequence of records the walk of `processPostmanItems` emits, in
encounter order (the persistence-free projection of the walk): a node with
a non-empty `item` list is recursed into, a node with no nested items and
no request is skipped, any other node yields one record with
`folderPath = parentPath`. -/
def emittedRequests : List PostmanItem → Nat → String → List Request
  | [], _, _ => []
  | .mk name _ (c :: cs) _ _ :: rest, cid, parentPath =>
    emittedRequests (c :: cs) cid (pathStep parentPath name)
      ++ emittedRequests rest cid parentPath
  | .mk name desc [] req pid :: rest, cid, parentPath =>
    (match req with
     | none => []
     | some r => [mkRequestRecord cid name desc parentPath r pid])
    ++ emittedRequests rest cid parentPath

/-- Number of tree nodes that carry a request and have an empty nested item
list, at any depth (nodes with a non-empty item list are only recursed
into, matching the branch order of the Go loop). -/
def leafCount : List PostmanItem → Nat
  | [] => 0
  | .mk _ _ (c :: cs) _ _ :: rest => leafCount (c :: cs) + leafCount rest
  | .mk _ _ [] req _ :: rest =>
    (match req with | none => 0 | some _ => 1) + leafCount rest

/-- State of the storage collaborator (collection and request repositories)
visible to the converter, plus a fault model: `collFail` makes the next
collection create fail, `reqFailOn = some n` makes the request create whose
zero-based call index equals `n` fail, `repoErr` is the error text the
failing repository call returns. -/
structure Store where
  collections : List Collection
  requests : List Request
  calls : Nat
  collFail : Bool
  reqFailOn : Option Nat
  repoErr : String
deriving Repr

/-- requestRepo.Create: either fails (per the fault model) leaving the rows
unchanged, or appends the new row.  Either way the call counter advances. -/
def requestRepoCreate (st : Store) (r : Request) : Option String × Store :=
  if st.reqFailOn = some st.calls then
    (some st.repoErr, { st with calls := st.calls + 1 })
  else
    (none, { st with calls := st.calls + 1, requests := st.requests ++ [r] })

/-- collection_service.go lines 156-264, processPostmanItems: depth-first
walk persisting one record per request leaf; a failed create aborts the
remaining walk and surfaces the error wrapped with
"failed to create request: ". -/
def processPostmanItems : List PostmanItem → Nat → String → Store → Option String × Store
  | [], _, _, st => (none, st)
  | .mk name _ (c :: cs) _ _ :: rest, cid, parentPath, st =>
    match processPostmanItems (c :: cs) cid (pathStep parentPath name) st with
    | (some e, st') => (some e, st')
    | (none, st') => processPostmanItems rest cid parentPath st'
  | .mk name desc [] req pid :: rest, cid, parentPath, st =>
    match req with
    | none => processPostmanItems rest cid parentPath st
    | some r =>
      match requestRepoCreate st (mkRequestRecord cid name desc parentPath r pid) with
      | (some e, st') => (some ("failed to create request: " ++ e), st')
      | (none, st') => processPostmanItems rest cid parentPath st'

/-- Top-level JSON value produced by `json.Marshal` for a `[]PostmanItem`
slice: the nil/empty slice encodes as `null`/an empty array and a non-empty
slice as an array of the item objects.  Only the fields present in the
embedding are rendered; `omitempty` fields are dropped when zero. -/
def marshalItems : List PostmanItem → List Json
  | [] => []
  | .mk name desc children req pid :: rest =>
    Json.obj ([("name", Json.str name)]
      ++ (if desc == "" then [] else [("description", Json.str desc)])
      ++ (match children with
          | [] => []
          | c :: cs => [("item", Json.arr (marshalItems (c :: cs)))])
      ++ (match req with
          | none => []
          | some r =>
            [("request",
              Json.obj ([("url", r.url), ("method", Json.str r.method)]
                ++ (match r.header with
                    | [] => []
                    | hs => [("header",
                        Json.arr (hs.map fun kv =>
                          Json.obj [("key", Json.str kv.key), ("value", Json.str kv.value)]))])))])
      ++ (if pid == "" then [] else [("id", Json.str pid)]))
    :: marshalItems rest

/-- collection_service.go lines 124-130: the `Items` cache written at import
time.  `json.Marshal(postmanCollection.Item)` yields `null` for the nil
slice and a JSON array otherwise; unmarshalling either into a JSONMap never
produces a non-nil map (null is a no-op, an array is a type error), and the
nil map is stored. -/
def importedItemsCache (items : List PostmanItem) : List (String × Json) :=
  match goUnmarshalMap (match items with
    | [] => Json.null
    | l => Json.arr (marshalItems l)) with
  | some (some m) => m
  | _ => []

/-- collection_service.go lines 132-142: the collection record built by the
importer (timestamps and id handled by the storage collaborator). -/
def importedCollection (pc : PostmanCollection) : Collection :=
  { name := pc.info.name, description := pc.info.description, schema := pc.schema
    items := importedItemsCache pc.item
    postmanID := pc.info.postmanID, exporterID := pc.info.exporterID }

/-- collection_service.go lines 92-153, ImportPostmanCollection.  The
`parsed` argument is the outcome of `json.Unmarshal` on the input bytes
(`.error e` when the bytes are not valid JSON); a document without an
`info.name` key decodes to the empty string, Go's zero value.  The new
collection's id is modelled as its index in the stored list
(autoincrement).  Returns the result and the storage state after the call. -/
def ImportPostmanCollection (parsed : Except String PostmanCollection) (st : Store) :
    Except String Nat × Store :=
  match parsed with
  | .error e => (.error ("invalid Postman collection format: " ++ e), st)
  | .ok pc =>
    if pc.info.name == "" then (.error "collection name is required", st)
    else if st.collFail then (.error ("failed to create collection: " ++ st.repoErr), st)
    else
      let cid := st.collections.length
      let st1 := { st with collections := st.collections ++ [importedCollection pc] }
      match processPostmanItems pc.item cid "" st1 with
      | (some e, st2) => (.error e, st2)
      | (none, st2) => (.ok cid, st2)

/-- Fixed exchange-schema URI stamped on every export
(collection_service.go line 281). -/
def schemaURI : String :=
  "https://schema.getpostman.com/json/collection/v2.1.0/collection.json"

/-- collection_service.go lines 335-341: the header map is turned back into
a key-value list only when non-nil (map iteration order is unspecified in
Go; the embedding uses stored insertion order). -/
def headersToKVList : Option (List (String × String)) → List KeyValuePair
  | none => []
  | some hs => hs.map fun p => { key := p.1, value := p.2 }

/-- collection_service.go lines 321-358: the exchange item rebuilt from one
stored record: a leaf (empty nested list) carrying a request whose URL is
the stored map re-encoded and decoded back into `any` (yielding the same
object value; the stored URL map is never nil on this path). -/
def exportRequestItem (r : Request) : PostmanItem :=
  PostmanItem.mk r.name r.description []
    (some { url := Json.obj r.url, method := r.method, header := headersToKVList r.headers })
    r.postmanID

/-- Go `folderMap[folderPath] = append(folderMap[folderPath], item)`:
append to the group of an existing key (keeping its position) or start a
new group. -/
def groupInsert (m : List (String × List PostmanItem)) (k : String) (it : PostmanItem) :
    List (String × List PostmanItem) :=
  match m with
  | [] => [(k, [it])]
  | (k', its) :: rest =>
    if k' == k then (k', its ++ [it]) :: rest else (k', its) :: groupInsert rest k it

/-- collection_service.go lines 320-372: grouping of the stored records by
`folder_path` (groups keyed in first-encounter order; Go map iteration
order is unspecified and no proved property depends on group order). -/
def folderGroups (rs : List Request) : List (String × List PostmanItem) :=
  rs.foldl (fun m r => groupInsert m r.folderPath (exportRequestItem r)) []

/-- Go `folderMap[""]`: the group of a key, or the empty list when absent. -/
def lookupGroup (m : List (String × List PostmanItem)) (k : String) : List PostmanItem :=
  match m.lookup k with
  | some l => l
  | none => []

/-- collection_service.go lines 374-387: root item list = the empty-path
group, then one synthetic folder per remaining group, named by the full
path string, holding that group's items. -/
def rebuildItems (rs : List Request) : List PostmanItem :=
  let m := folderGroups rs
  lookupGroup m ""
    ++ (m.filter (fun p => p.1 != "")).map (fun p => PostmanItem.mk p.1 "" p.2 none "")

/-- Result of `json.Marshal` on a non-nil `models.JSONMap`: always a JSON
object (Go sorts map keys in the encoding; the proved properties only
inspect the top-level constructor, so stored order is kept). -/
def marshalJSONMap (m : List (String × Json)) : Json := Json.obj m

/-- Necessary top-level condition for `json.Unmarshal(bytes, &items)` with
`items : []PostmanItem` to succeed: the top-level JSON value must be an
array (or `null`, a no-op).  Decoding any other value into a slice fails
before any element is examined. -/
def sliceDecodeTopOk : Json → Bool
  | .arr _ => true
  | .null => true
  | _ => false

/-- collection_service.go lines 284-288: the cached-items fast path is
entered only when the cache map is non-empty and its re-encoding decodes
into an item slice. -/
def exportUsesFastPath (c : Collection) : Bool :=
  !c.items.isEmpty && sliceDecodeTopOk (marshalJSONMap c.items)

/-- collection_service.go lines 273-282: the exported document's metadata;
`schema` is always the fixed URI regardless of the stored value. -/
def exportBase (c : Collection) : PostmanCollection :=
  { info := { name := c.name, description := c.description, schema := c.schema
              postmanID := c.postmanID, exporterID := c.exporterID }
    item := [], schema := schemaURI }

/-- collection_service.go lines 267-409, ExportPostmanCollection, as a
function of the stored collection and its request rows (fetching and final
serialization belong to the collaborators).  The fast-path branch is
provably never taken (`exportUsesFastPath_false` below) because no JSON
object decodes into an item slice, so the decoded cached tree it would
return is not modelled beyond the base document. -/
def ExportPostmanCollection (c : Collection) (rs : List Request) : PostmanCollection :=
  if exportUsesFastPath c then exportBase c
  else { exportBase c with item := rebuildItems rs }

/-- JSON value the serializer emits for the top-level `item` field of the
export result: Go's encoding/json marshals the nil `[]PostmanItem` slice as
`null` (the rebuild path leaves `Item` nil exactly when no record produced
an item, since `folderMap[""]` is nil for an absent key and groups are
non-empty), and a non-empty slice as an array. -/
def itemFieldJson (c : Collection) (rs : List Request) : Json :=
  match (ExportPostmanCollection c rs).item with
  | [] => Json.null
  | items => Json.arr (marshalItems items)

/-- Slash-join of a list of path components (the spec's description of
`folder_path`: the slash-joined ancestor folder names, no leading or
trailing slash). -/
def joinPath : List String → String
  | [] => ""
  | [n] => n
  | n :: m :: rest => n ++ "/" ++ joinPath (m :: rest)

/-- Specification-side walk: identical to `emittedRequests` except that the
ancestor folder names are carried as a list and a leaf's `folderPath` is
their slash-join. -/
def annotEmitted : List PostmanItem → Nat → List String → List Request
  | [], _, _ => []
  | .mk name _ (c :: cs) _ _ :: rest, cid, anc =>
    annotEmitted (c :: cs) cid (anc ++ [name]) ++ annotEmitted rest cid anc
  | .mk name desc [] req pid :: rest, cid, anc =>
    (match req with
     | none => []
     | some r => [mkRequestRecord cid name desc (joinPath anc) r pid])
    ++ annotEmitted rest cid anc

/-- Well-formedness of the input tree for the folder-path property: every
node that has children (hence contributes a path component) has a
non-empty name. -/
def foldersNamed : List PostmanItem → Bool
  | [] => true
  | .mk name _ (c :: cs) _ _ :: rest =>
    (name != "") && foldersNamed (c :: cs) && foldersNamed rest
  | .mk _ _ [] _ _ :: rest => foldersNamed rest

/-- Specification-side URL normalization, by the cases the spec states:
a non-empty bare string `s` yields `{"raw": s}`; `nil` or the empty string
yields the empty object; an object is kept with all its keys; any value
whose encode-then-decode round trip into a string-keyed map fails (bool,
number, array) yields the empty object. -/
def specRequestURL : Json → List (String × Json)
  | .str s => if s == "" then [] else [("raw", Json.str s)]
  | .obj fields => fields
  | .null => []
  | _ => []

/-- Value of the last occurrence of a key in a key-value list (the spec's
last-write-wins tie-break). -/
def lastHeaderValue : List KeyValuePair → String → Option String
  | [], _ => none
  | kv :: rest, k =>
    match lastHeaderValue rest k with
    | some v => some v
    | none => if kv.key == k then some kv.value else none

/-- Lookup in the optional stored headers map (a nil Go map reads as the
empty mapping). -/
def headersLookup (m : Option (List (String × String))) (k : String) : Option String :=
  match m with
  | none => none
  | some hs => hs.lookup k

/-- First-occurrence deduplication of a key list (the distinct
`folder_path` values in first-encounter order). -/
def dedupKeys (ks : List String) : List String :=
  ks.foldl (fun acc k => if k ∈ acc then acc else acc ++ [k]) []

/-- The raw URL string of an exchange request URL value, for round-trip
comparison: a non-empty bare string is its own raw string, an object's raw
string is its `"raw"` key when that is a string, anything else has none. -/
def urlRaw : Json → Option String
  | .str s => if s == "" then none else some s
  | .obj fields =>
    (match fields.lookup "raw" with
     | some (Json.str s) => some s
     | _ => none)
  | _ => none

/-- The (name, method, raw-URL) triples of every request in an exchange
item tree, in depth-first order. -/
def docTriples : List PostmanItem → List (String × String × Option String)
  | [] => []
  | .mk name _ children req _ :: rest =>
    (match req with
     | none => []
     | some r => [(name, r.method, urlRaw r.url)])
    ++ docTriples children ++ docTriples rest

/-- The triple of one stored record as it reappears on export. -/
def recordTriple (r : Request) : String × String × Option String :=
  (r.name, r.method, urlRaw (Json.obj r.url))

/-- No node with a non-empty nested item list carries its own request
(folders are pure folders), at any depth. -/
def noFolderRequests : List PostmanItem → Bool
  | [] => true
  | .mk _ _ (c :: cs) req _ :: rest =>
    req.isNone && noFolderRequests (c :: cs) && noFolderRequests rest
  | .mk _ _ [] _ _ :: rest => noFolderRequests rest

/-- The three-level fixture shape of the round-trip property: every root
node is a leaf or a folder of leaves carrying no request of its own, at
least one folder contains two or more request leaves, and at least one
request sits at top level. -/
def threeLevelFixture (pc : PostmanCollection) : Bool :=
  pc.item.all (fun i =>
      i.item.isEmpty || (i.request.isNone && i.item.all (fun c => c.item.isEmpty)))
    && pc.item.any (fun i =>
      !i.item.isEmpty && 2 ≤ (i.item.filter (fun c => c.request.isSome)).length)
    && pc.item.any (fun i => i.item.isEmpty && i.request.isSome)

/-- Concrete three-level sample document used to witness the theorems: one
request at top level and one folder holding two request leaves. -/
def sampleDoc : PostmanCollection :=
  { info := { name := "Sample", description := "demo", schema := "", postmanID := ""
              exporterID := "" }
    item := [
      PostmanItem.mk "Ping" "" []
        (some { url := Json.str "https://example.com/ping", method := "GET"
                header := [{ key := "A", value := "1" }, { key := "A", value := "2" }] }) "",
      PostmanItem.mk "Auth" "" [
        PostmanItem.mk "Login" "" []
          (some { url := Json.str "https://example.com/login", method := "POST", header := [] }) "",
        PostmanItem.mk "Logout" "" []
          (some { url := Json.obj [("raw", Json.str "https://example.com/out")], method := "POST"
                  header := [] }) ""] none ""]
    schema := "https://stored.example/schema" }

/-- Concrete doubly nested item list (a leaf under folders Auth then Login,
plus a root-level leaf) used to witness the folder-path theorem. -/
def nestedDoc : List PostmanItem :=
  [PostmanItem.mk "Auth" "" [
     PostmanItem.mk "Login" "" [
       PostmanItem.mk "Do Login" "" []
         (some { url := Json.str "https://example.com/login", method := "POST", header := [] })
         ""] none ""] none "",
   PostmanItem.mk "Root Ping" "" []
     (some { url := Json.null, method := "GET", header := [] }) ""]

/-- A storage state with no rows and no injected faults. -/
def emptyStore : Store :=
  { collections := [], requests := [], calls := 0, collFail := false, reqFailOn := none
    repoErr := "db down" }

/-- A storage state whose request create with zero-based index `n` fails. -/
def failStore (n : Nat) : Store := { emptyStore with reqFailOn := some n }

/-- Concrete stored collection used for the export counterexample. -/
def sampleCollection : Collection :=
  { name := "S", description := "", schema := "https://stored.example/schema", items := []
    postmanID := "", exporterID := "" }


/-- The exported leaf items of one folder-path group: the records with that
`folder_path`, in stored order. -/
def folderGroupItems (rs : List Request) (k : String) : List PostmanItem :=
  (rs.filter (fun r => r.folderPath == k)).map exportRequestItem

/-- The distinct non-empty `folder_path` values of a record list, in
first-encounter order. -/
def distinctFolderPaths (rs : List Request) : List String :=
  dedupKeys ((rs.map Request.folderPath).filter (fun k => k != ""))


theorem emitted_length (items : List PostmanItem) (cid : Nat) (p : String) :
    (emittedRequests items cid p).length = leafCount items := by
  induction items, cid, p using emittedRequests.induct with
  | case1 cid p => simp [emittedRequests, leafCount]
  | case2 name desc c cs req pid rest cid p ihc ihr =>
    simp [emittedRequests, leafCount, ihc, ihr]
  | case3 name desc req pid rest cid p ihr =>
    cases req with
    | none => simp [emittedRequests, leafCount, ihr]
    | some r => simp [emittedRequests, leafCount, ihr]; omega


theorem processPostmanItems_ok :
    ∀ (items : List PostmanItem) (cid : Nat) (p : String) (st : Store),
    (∀ m, st.reqFailOn = some m → m < st.calls ∨ st.calls + leafCount items ≤ m) →
    processPostmanItems items cid p st =
      (none, { st with requests := st.requests ++ emittedRequests items cid p
                       calls := st.calls + leafCount items }) := by
  intro items cid p st
  induction items, cid, p, st using processPostmanItems.induct with
  | case1 cid p st =>
    intro _
    simp [processPostmanItems, emittedRequests, leafCount]
  | case2 name desc c cs req pid rest cid p st e st' heq ihc =>
    intro hok
    have hc : ∀ m, st.reqFailOn = some m →
        m < st.calls ∨ st.calls + leafCount (c :: cs) ≤ m := by
      intro m hm
      simp only [leafCount] at hok
      rcases hok m hm with h | h
      · exact Or.inl h
      · exact Or.inr (by omega)
    rw [ihc hc] at heq
    simp at heq
  | case3 name desc c cs req pid rest cid p st st' heq ihc ihr =>
    intro hok
    simp only [leafCount] at hok
    have hc : ∀ m, st.reqFailOn = some m →
        m < st.calls ∨ st.calls + leafCount (c :: cs) ≤ m := by
      intro m hm
      rcases hok m hm with h | h
      · exact Or.inl h
      · exact Or.inr (by omega)
    have hrw := ihc hc
    rw [hrw] at heq
    have hst' : st' = { st with
        requests := st.requests ++ emittedRequests (c :: cs) cid (pathStep p name),
        calls := st.calls + leafCount (c :: cs) } := by
      have h2 := congrArg Prod.snd heq
      simpa using h2.symm
    subst hst'
    have hrest := ihr ?_
    · simp only [processPostmanItems, hrw, hrest]
      simp [emittedRequests, leafCount, List.append_assoc, Nat.add_assoc]
    · intro m hm
      simp only at hm
      rcases hok m hm with h | h
      · exact Or.inl (by simp only; omega)
      · exact Or.inr (by simp only; omega)
  | case4 name desc pid rest cid p st ihr =>
    intro hok
    simp only [leafCount] at hok
    simp only [processPostmanItems, emittedRequests, leafCount]
    rw [ihr ?_]
    · simp
    · intro m hm
      rcases hok m hm with h | h
      · exact Or.inl h
      · exact Or.inr (by omega)
  | case5 name desc pid rest cid p st r e st' heq =>
    intro hok
    simp only [leafCount] at hok
    unfold requestRepoCreate at heq
    by_cases hf : st.reqFailOn = some st.calls
    · rcases hok st.calls hf with h | h <;> omega
    · rw [if_neg hf] at heq
      simp at heq
  | case6 name desc pid rest cid p st r st' heq ihr =>
    intro hok
    simp only [leafCount] at hok
    unfold requestRepoCreate at heq
    by_cases hf : st.reqFailOn = some st.calls
    · rw [if_pos hf] at heq
      simp at heq
    · rw [if_neg hf] at heq
      have hst' : st' = { st with
          calls := st.calls + 1
          requests := st.requests ++ [mkRequestRecord cid name desc p r pid] } := by
        have := congrArg Prod.snd heq
        simpa using this.symm
      subst hst'
      have hrest := ihr ?_
      · simp only [processPostmanItems, requestRepoCreate, if_neg hf, hrest]
        simp [emittedRequests, leafCount, List.append_assoc]
        omega
      · intro m hm
        simp only at hm
        rcases hok m hm with h | h
        · exact Or.inl (by simp only; omega)
        · exact Or.inr (by simp only; omega)

theorem processPostmanItems_fail :
    ∀ (items : List PostmanItem) (cid : Nat) (p : String) (st : Store) (m : Nat),
    st.reqFailOn = some m → st.calls ≤ m → m - st.calls < leafCount items →
    processPostmanItems items cid p st =
      (some ("failed to create request: " ++ st.repoErr),
       { st with requests := st.requests ++ (emittedRequests items cid p).take (m - st.calls)
                 calls := m + 1 }) := by
  intro items cid p st
  induction items, cid, p, st using processPostmanItems.induct with
  | case1 cid p st =>
    intro m _ _ hlt
    simp [leafCount] at hlt
  | case2 name desc c cs req pid rest cid p st e st' heq ihc =>
    intro m hm hle hlt
    simp only [leafCount] at hlt
    by_cases hc : m - st.calls < leafCount (c :: cs)
    · have hrw := ihc m hm hle hc
      have htake : (emittedRequests (PostmanItem.mk name desc (c :: cs) req pid :: rest)
            cid p).take (m - st.calls) =
          (emittedRequests (c :: cs) cid (pathStep p name)).take (m - st.calls) := by
        simp only [emittedRequests]
        rw [List.take_append_of_le_length]
        rw [emitted_length]
        omega
      simp only [processPostmanItems, hrw]
      rw [htake]
    · have hok : ∀ m', st.reqFailOn = some m' →
          m' < st.calls ∨ st.calls + leafCount (c :: cs) ≤ m' := by
        intro m' hm'
        rw [hm] at hm'
        have hmm : m' = m := (Option.some.inj hm').symm
        subst hmm
        right; omega
      rw [processPostmanItems_ok (c :: cs) cid (pathStep p name) st hok] at heq
      simp at heq
  | case3 name desc c cs req pid rest cid p st st' heq ihc ihr =>
    intro m hm hle hlt
    simp only [leafCount] at hlt
    by_cases hc : m - st.calls < leafCount (c :: cs)
    · have hrw := ihc m hm hle hc
      rw [hrw] at heq
      simp at heq
    · have hok : ∀ m', st.reqFailOn = some m' →
          m' < st.calls ∨ st.calls + leafCount (c :: cs) ≤ m' := by
        intro m' hm'
        rw [hm] at hm'
        have hmm : m' = m := (Option.some.inj hm').symm
        subst hmm
        right; omega
      have hrw := processPostmanItems_ok (c :: cs) cid (pathStep p name) st hok
      rw [hrw] at heq
      have hst' : st' = { st with
          requests := st.requests ++ emittedRequests (c :: cs) cid (pathStep p name),
          calls := st.calls + leafCount (c :: cs) } := by
        have h2 := congrArg Prod.snd heq
        simpa using h2.symm
      subst hst'
      have hlen : (emittedRequests (c :: cs) cid (pathStep p name)).length =
          leafCount (c :: cs) := emitted_length _ _ _
      have hrest := ihr m ?_ ?_ ?_
      · simp only [processPostmanItems, hrw, hrest]
        have htk := @List.take_of_length_le _ (m - st.calls)
          (emittedRequests (c :: cs) cid (pathStep p name)) (by omega)
        simp only [emittedRequests]
        rw [List.take_append_eq_append_take, htk, hlen]
        have harith : m - st.calls - leafCount (c :: cs) =
            m - (st.calls + leafCount (c :: cs)) := by omega
        rw [harith]
        simp [List.append_assoc]
      · simpa using hm
      · show st.calls + leafCount (c :: cs) ≤ m
        omega
      · show m - (st.calls + leafCount (c :: cs)) < leafCount rest
        omega
  | case4 name desc pid rest cid p st ihr =>
    intro m hm hle hlt
    simp only [leafCount] at hlt
    have hrest := ihr m hm hle (by omega)
    simp only [processPostmanItems, hrest, emittedRequests]
    simp
  | case5 name desc pid rest cid p st r e st' heq =>
    intro m hm hle hlt
    unfold requestRepoCreate at heq
    by_cases hf : st.reqFailOn = some st.calls
    · rw [if_pos hf] at heq
      obtain ⟨h1, h2⟩ := Prod.mk.injEq _ _ _ _ ▸ heq
      have hmc : m = st.calls := by
        rw [hm] at hf
        exact Option.some.inj hf
      simp only [processPostmanItems, requestRepoCreate, if_pos hf]
      subst hmc
      simp [h1]
    · rw [if_neg hf] at heq
      simp at heq
  | case6 name desc pid rest cid p st r st' heq ihr =>
    intro m hm hle hlt
    simp only [leafCount] at hlt
    unfold requestRepoCreate at heq
    by_cases hf : st.reqFailOn = some st.calls
    · rw [if_pos hf] at heq
      simp at heq
    · have hmc : m ≠ st.calls := by
        intro h; rw [← h] at hf; exact hf hm
      rw [if_neg hf] at heq
      have hst' : st' = { st with
          calls := st.calls + 1
          requests := st.requests ++ [mkRequestRecord cid name desc p r pid] } := by
        have h2 := congrArg Prod.snd heq
        simpa using h2.symm
      subst hst'
      have hrest := ihr m ?_ ?_ ?_
      · simp only [processPostmanItems, requestRepoCreate, if_neg hf, hrest]
        have htk := @List.take_of_length_le _ (m - st.calls)
          [mkRequestRecord cid name desc p r pid] (by simp; omega)
        simp only [emittedRequests]
        rw [List.take_append_eq_append_take, htk]
        have harith : m - st.calls - [mkRequestRecord cid name desc p r pid].length =
            m - (st.calls + 1) := by simp; omega
        rw [harith]
        simp [List.append_assoc]
      · simpa using hm
      · show st.calls + 1 ≤ m
        omega
      · show m - (st.calls + 1) < leafCount rest
        omega

/-- C1: for every well-formed input document, the import walk emits and
persists exactly one RequestRecord per tree node that has a request and an
empty nested item list, at any depth: the emitted sequence has exactly
`leafCount` records (one per such node — folders are recursed into without
a record, request-less leaves are skipped), and when no storage fault is
injected the walk persists exactly that sequence, in order. -/
theorem import_one_record_per_request_leaf (items : List PostmanItem) (cid : Nat)
    (p : String) (st : Store) (h : st.reqFailOn = none) :
    (emittedRequests items cid p).length = leafCount items ∧
    processPostmanItems items cid p st =
      (none, { st with requests := st.requests ++ emittedRequests items cid p
                       calls := st.calls + leafCount items }) :=
  ⟨emitted_length items cid p,
   processPostmanItems_ok items cid p st (fun m hm => by rw [h] at hm; cases hm)⟩

theorem import_one_record_per_request_leaf_witness :
    emptyStore.reqFailOn = none ∧
    ((emittedRequests sampleDoc.item 0 "").length = leafCount sampleDoc.item ∧
     processPostmanItems sampleDoc.item 0 "" emptyStore =
       (none, { emptyStore with
                requests := emptyStore.requests ++ emittedRequests sampleDoc.item 0 ""
                calls := emptyStore.calls + leafCount sampleDoc.item })) :=
  ⟨rfl, import_one_record_per_request_leaf sampleDoc.item 0 "" emptyStore rfl⟩

/-- C5: when the import payload is not valid JSON, or the parsed document's
`info.name` is empty (Go's zero value also covers an absent key), the import
returns an error and the storage state is unchanged: nothing was written. -/
theorem import_malformed_fails_without_write (parsed : Except String PostmanCollection)
    (st : Store)
    (h : (∃ e, parsed = Except.error e) ∨ ∃ pc, parsed = Except.ok pc ∧ pc.info.name = "") :
    (∃ e, (ImportPostmanCollection parsed st).1 = Except.error e) ∧
      (ImportPostmanCollection parsed st).2 = st := by
  rcases h with ⟨e, he⟩ | ⟨pc, hpc, hname⟩
  · subst he
    exact ⟨⟨"invalid Postman collection format: " ++ e, rfl⟩, rfl⟩
  · subst hpc
    refine ⟨⟨"collection name is required", ?_⟩, ?_⟩ <;>
      simp [ImportPostmanCollection, hname]

theorem import_malformed_fails_without_write_witness :
    ((∃ e, (Except.error "bad" : Except String PostmanCollection) = Except.error e) ∨
      ∃ pc, (Except.error "bad" : Except String PostmanCollection) = Except.ok pc ∧
        pc.info.name = "") ∧
    ((∃ e, (ImportPostmanCollection (Except.error "bad") emptyStore).1 = Except.error e) ∧
      (ImportPostmanCollection (Except.error "bad") emptyStore).2 = emptyStore) :=
  ⟨Or.inl ⟨"bad", rfl⟩,
   import_malformed_fails_without_write (Except.error "bad") emptyStore (Or.inl ⟨"bad", rfl⟩)⟩

/-- C6: when the request create with zero-based call index `n` fails during
the import (the (n+1)-st emitted record), the import stops the remaining walk
and returns the storage error wrapped with context, while the collection
record and the first `n` request records stay persisted: no rollback. -/
theorem import_partial_persistence (pc : PostmanCollection) (st : Store) (n : Nat)
    (hname : pc.info.name ≠ "") (hcoll : st.collFail = false)
    (hfail : st.reqFailOn = some n) (hcalls : st.calls = 0)
    (hn : n < leafCount pc.item) :
    ImportPostmanCollection (Except.ok pc) st =
      (Except.error ("failed to create request: " ++ st.repoErr),
       { st with collections := st.collections ++ [importedCollection pc]
                 requests := st.requests ++
                   (emittedRequests pc.item st.collections.length "").take n
                 calls := n + 1 }) := by
  have h1 : (pc.info.name == "") = false := by
    simp [hname]
  have hfl := processPostmanItems_fail pc.item st.collections.length ""
    { st with collections := st.collections ++ [importedCollection pc] } n
    (by simpa using hfail) (by simp [hcalls]) (by simpa [hcalls] using hn)
  simp only [hcalls, hcoll, Nat.sub_zero] at hfl
  simp only [ImportPostmanCollection, h1, hcoll, hcalls, Bool.false_eq_true, if_false, hfl]

theorem import_partial_persistence_witness :
    sampleDoc.info.name ≠ "" ∧ (failStore 1).collFail = false ∧
    (failStore 1).reqFailOn = some 1 ∧ (failStore 1).calls = 0 ∧
    1 < leafCount sampleDoc.item ∧
    ImportPostmanCollection (Except.ok sampleDoc) (failStore 1) =
      (Except.error ("failed to create request: " ++ (failStore 1).repoErr),
       { failStore 1 with
         collections := (failStore 1).collections ++ [importedCollection sampleDoc]
         requests := (failStore 1).requests ++
           (emittedRequests sampleDoc.item (failStore 1).collections.length "").take 1
         calls := 1 + 1 }) :=
  ⟨by decide, rfl, rfl, rfl, by simp [sampleDoc, leafCount],
   import_partial_persistence sampleDoc (failStore 1) 1 (by decide) rfl rfl rfl
     (by simp [sampleDoc, leafCount])⟩

/-- C3: the URL stored on every record the import walk builds is exactly the
specification's case analysis of the exchange URL value: a non-empty bare
string `s` gives the map with single key `raw` and value `s`; JSON null or
the empty string give the empty map; an object is kept with all its keys;
any other value (whose decode into a string-keyed map fails) gives the
empty map.  The stored field is a map by type: never absent, never a bare
scalar. -/
theorem imported_url_matches_spec_cases (cid : Nat) (name desc parentPath : String)
    (req : PostmanRequest) (pid : String) :
    (mkRequestRecord cid name desc parentPath req pid).url = specRequestURL req.url := by
  cases hu : req.url with
  | str s =>
    by_cases hs : s = "" <;>
      simp [mkRequestRecord, normalizeRequestURL, specRequestURL, hu, hs]
  | null => simp [mkRequestRecord, normalizeRequestURL, specRequestURL, goUnmarshalMap, hu]
  | bool b => simp [mkRequestRecord, normalizeRequestURL, specRequestURL, goUnmarshalMap, hu]
  | num i => simp [mkRequestRecord, normalizeRequestURL, specRequestURL, goUnmarshalMap, hu]
  | arr l => simp [mkRequestRecord, normalizeRequestURL, specRequestURL, goUnmarshalMap, hu]
  | obj fields => simp [mkRequestRecord, normalizeRequestURL, specRequestURL, goUnmarshalMap, hu]

theorem importedItemsCache_empty (items : List PostmanItem) :
    importedItemsCache items = [] := by
  cases items <;> simp [importedItemsCache, goUnmarshalMap]

theorem exportUsesFastPath_false (c : Collection) : exportUsesFastPath c = false := by
  simp [exportUsesFastPath, marshalJSONMap, sliceDecodeTopOk]

theorem export_rebuilds (c : Collection) (rs : List Request) :
    ExportPostmanCollection c rs = { exportBase c with item := rebuildItems rs } := by
  simp [ExportPostmanCollection, exportUsesFastPath_false]

/-- C10: the cached-items fast path of the export never returns.  On import
the cache decode always leaves the empty map (the item slice marshals to an
array or null, neither of which decodes into a string-keyed map), and on
export the guard never passes (a non-empty JSONMap re-encodes as a JSON
object, whose decode into an item slice fails at the top level), so the
export always rebuilds the tree from the flat request records. -/
theorem export_fast_path_never_taken (items : List PostmanItem) (c : Collection)
    (rs : List Request) :
    importedItemsCache items = [] ∧ exportUsesFastPath c = false ∧
      ExportPostmanCollection c rs = { exportBase c with item := rebuildItems rs } :=
  ⟨importedItemsCache_empty items, exportUsesFastPath_false c, export_rebuilds c rs⟩

theorem lookup_mapInsert (m : List (String × String)) (k v k' : String) :
    (mapInsert m k v).lookup k' = if k' = k then some v else m.lookup k' := by
  induction m with
  | nil =>
    by_cases h : k' = k
    · simp [mapInsert, List.lookup, h]
    · simp [mapInsert, List.lookup, h, beq_eq_false_iff_ne.mpr h]
  | cons hd t ih =>
    obtain ⟨a, b⟩ := hd
    by_cases hak : a = k <;> by_cases h1 : k' = k <;> by_cases h2 : k' = a <;>
      simp_all [mapInsert, List.lookup, beq_iff_eq, beq_eq_false_iff_ne.mpr,
        beq_eq_false_iff_ne]

theorem lookup_foldHeaders (l : List KeyValuePair) (m : List (String × String)) (k : String) :
    (l.foldl (fun acc kv => mapInsert acc kv.key kv.value) m).lookup k =
      match lastHeaderValue l k with
      | some v => some v
      | none => m.lookup k := by
  induction l generalizing m with
  | nil => simp [lastHeaderValue]
  | cons kv t ih =>
    simp only [List.foldl_cons, lastHeaderValue]
    rw [ih]
    cases hlv : lastHeaderValue t k with
    | some v => simp
    | none =>
      simp only
      rw [lookup_mapInsert]
      by_cases h : kv.key = k
      · simp [h, beq_iff_eq.mpr h]
      · have h' : ¬k = kv.key := fun hh => h hh.symm
        simp [h', beq_eq_false_iff_ne.mpr h]

/-- C7: the stored headers field is the mapping obtained by inserting the
exchange header list in order with last-write-wins on duplicate keys: for
every record the import walk builds, looking up any key in the stored map
yields the value of the key's last occurrence in the exchange list, and the
list [{A,1},{A,2}] normalizes to the single-entry map A -> 2. -/
theorem headers_last_write_wins :
    (∀ (cid : Nat) (name desc parentPath : String) (req : PostmanRequest) (pid : String)
       (k : String),
       headersLookup (mkRequestRecord cid name desc parentPath req pid).headers k =
         lastHeaderValue req.header k) ∧
    buildHeaders [{ key := "A", value := "1" }, { key := "A", value := "2" }] =
      some [("A", "2")] := by
  constructor
  · intro cid name desc parentPath req pid k
    show headersLookup (buildHeaders req.header) k = lastHeaderValue req.header k
    unfold buildHeaders
    cases hl : req.header with
    | nil => simp [headersLookup, lastHeaderValue]
    | cons kv t =>
      simp only [List.isEmpty_cons, if_false, Bool.false_eq_true, headersLookup]
      rw [lookup_foldHeaders]
      cases lastHeaderValue (kv :: t) k <;> simp [List.lookup]
  · rfl

theorem rebuildItems_nil : rebuildItems [] = [] := by
  simp [rebuildItems, folderGroups, lookupGroup, List.lookup]

/-- C9 counterexample: exporting a collection with zero request records does
not serialize the `item` field as the empty array: the Go nil slice is
marshalled as JSON null, so the emitted field is `null`, not `[]`. -/
theorem export_empty_item_not_array_counterexample :
    itemFieldJson sampleCollection [] = Json.null ∧ Json.null ≠ Json.arr [] := by
  constructor
  · simp [itemFieldJson, export_rebuilds, rebuildItems_nil]
  · intro h
    cases h

/-- C9 (amended): exporting a collection with zero request records yields a
document whose item list is empty — serialized by Go as `item: null`, since
the nil slice marshals to JSON null rather than `[]` — and whose top-level
schema field is the fixed exchange-schema URI regardless of the stored
schema value. -/
theorem export_empty_collection (c : Collection) :
    (ExportPostmanCollection c []).item = [] ∧ itemFieldJson c [] = Json.null ∧
      (ExportPostmanCollection c []).schema = schemaURI := by
  refine ⟨?_, ?_, ?_⟩ <;>
    simp [export_rebuilds, itemFieldJson, rebuildItems_nil, exportBase]

theorem string_length_zero {s : String} (h : s.length = 0) : s = "" := by
  cases s with
  | mk data =>
    simp [String.length] at h
    simp [h]

theorem joinPath_ne_empty (a : String) (l : List String) (h : a ≠ "") :
    joinPath (a :: l) ≠ "" := by
  have ha : a.length ≠ 0 := fun hz => h (string_length_zero hz)
  cases l with
  | nil => simpa [joinPath] using h
  | cons b t =>
    intro hE
    have hlen := congrArg String.length hE
    simp only [joinPath, String.length_append] at hlen
    have h1 : ("/" : String).length = 1 := rfl
    have h2 : ("" : String).length = 0 := rfl
    omega

theorem joinPath_append_singleton (a : String) (t : List String) (n : String) :
    joinPath (a :: t) ++ "/" ++ n = joinPath (a :: (t ++ [n])) := by
  induction t generalizing a with
  | nil => simp [joinPath]
  | cons b t' ih =>
    show (a ++ "/" ++ joinPath (b :: t')) ++ "/" ++ n = a ++ "/" ++ joinPath (b :: (t' ++ [n]))
    rw [← ih b]
    simp [String.append_assoc]

theorem pathStep_joinPath (anc : List String) (n : String) (h : ∀ a ∈ anc, a ≠ "") :
    pathStep (joinPath anc) n = joinPath (anc ++ [n]) := by
  cases anc with
  | nil => simp [pathStep, joinPath]
  | cons a t =>
    have hne : joinPath (a :: t) ≠ "" := joinPath_ne_empty a t (h a (by simp))
    have hb : (joinPath (a :: t) == "") = false := beq_eq_false_iff_ne.mpr hne
    simp only [pathStep, hb, Bool.false_eq_true, if_false]
    simpa using joinPath_append_singleton a t n

theorem emitted_eq_annot :
    ∀ (items : List PostmanItem) (cid : Nat) (anc : List String),
    foldersNamed items = true → (∀ a ∈ anc, a ≠ "") →
    emittedRequests items cid (joinPath anc) = annotEmitted items cid anc := by
  intro items cid anc
  induction items, cid, anc using annotEmitted.induct with
  | case1 cid anc =>
    intro _ _
    simp [emittedRequests, annotEmitted]
  | case2 name desc c cs req pid rest cid anc ihc ihr =>
    intro hf ha
    have hf3 : (name != "") = true ∧ foldersNamed (c :: cs) = true ∧
        foldersNamed rest = true := by
      simpa [foldersNamed, Bool.and_eq_true, and_assoc] using hf
    obtain ⟨hn, hfc, hfr⟩ := hf3
    have hnn : name ≠ "" := by simpa using hn
    have ha' : ∀ a ∈ anc ++ [name], a ≠ "" := by
      intro a haa
      rcases List.mem_append.mp haa with hmem | hmem
      · exact ha a hmem
      · simp only [List.mem_singleton] at hmem
        subst hmem
        exact hnn
    simp only [emittedRequests, annotEmitted]
    rw [pathStep_joinPath anc name ha, ihc hfc ha', ihr hfr ha]
  | case3 name desc req pid rest cid anc ihr =>
    intro hf ha
    have hfr : foldersNamed rest = true := by
      simp only [foldersNamed] at hf
      exact hf
    cases req with
    | none =>
      simp only [emittedRequests, annotEmitted]
      rw [ihr hfr ha]
    | some r =>
      simp only [emittedRequests, annotEmitted]
      rw [ihr hfr ha]

/-- C4: for every record the import walk emits from the document root, the
stored `folder_path` is the slash-join of the names of its ancestor folders
(the path of the immediate containing folder, not including the leaf's own
name, with no leading or trailing slash; the empty string at the root):
under the well-formedness assumption that folder names are non-empty, the
code walk coincides with the specification walk that carries the ancestor
name list and stamps each leaf with its slash-join.  The fixture
`nestedDoc` instantiates the Auth/Login and root cases. -/
theorem folder_path_slash_joined (items : List PostmanItem) (cid : Nat)
    (h : foldersNamed items = true) :
    emittedRequests items cid "" = annotEmitted items cid [] :=
  emitted_eq_annot items cid [] h (by simp)

theorem folder_path_slash_joined_witness :
    foldersNamed nestedDoc = true ∧
      emittedRequests nestedDoc 7 "" = annotEmitted nestedDoc 7 [] :=
  ⟨by simp [nestedDoc, foldersNamed],
   folder_path_slash_joined nestedDoc 7 (by simp [nestedDoc, foldersNamed])⟩

theorem dedupKeys_append (ks : List String) (k : String) :
    dedupKeys (ks ++ [k]) =
      if k ∈ dedupKeys ks then dedupKeys ks else dedupKeys ks ++ [k] := by
  simp [dedupKeys, List.foldl_append]

theorem mem_dedupKeys (ks : List String) (k : String) :
    k ∈ dedupKeys ks ↔ k ∈ ks := by
  induction ks using List.reverseRecOn with
  | nil => simp [dedupKeys]
  | append_singleton t a ih =>
    rw [dedupKeys_append]
    by_cases h : a ∈ dedupKeys t
    · simp only [if_pos h]
      constructor
      · intro hk
        exact List.mem_append_left _ (ih.mp hk)
      · intro hk
        rcases List.mem_append.mp hk with hk | hk
        · exact ih.mpr hk
        · simp only [List.mem_singleton] at hk
          subst hk
          exact h
    · simp only [if_neg h]
      simp [ih]

theorem nodup_dedupKeys (ks : List String) : (dedupKeys ks).Nodup := by
  induction ks using List.reverseRecOn with
  | nil => simp [dedupKeys]
  | append_singleton t a ih =>
    rw [dedupKeys_append]
    by_cases h : a ∈ dedupKeys t
    · simpa [h] using ih
    · simp [h, List.nodup_append, ih]

theorem dedupKeys_filter (ks : List String) (pr : String → Bool) :
    dedupKeys (ks.filter pr) = (dedupKeys ks).filter pr := by
  induction ks using List.reverseRecOn with
  | nil => simp [dedupKeys]
  | append_singleton t a ih =>
    rw [List.filter_append, dedupKeys_append]
    by_cases hpa : pr a
    · simp only [List.filter_singleton, hpa, cond_true]
      rw [dedupKeys_append]
      by_cases h : a ∈ dedupKeys t
      · have h2 : a ∈ dedupKeys (t.filter pr) := by
          rw [mem_dedupKeys] at h ⊢
          exact List.mem_filter.mpr ⟨h, hpa⟩
        simp [h, h2, ih, hpa]
      · have h2 : a ∉ dedupKeys (t.filter pr) := by
          rw [mem_dedupKeys] at h ⊢
          intro hmem
          exact h (List.mem_filter.mp hmem).1
        simp [h, h2, ih, List.filter_append, List.filter_singleton, hpa]
    · have hpa' : pr a = false := by simpa using hpa
      simp only [List.filter_singleton, hpa', cond_false, List.append_nil]
      by_cases h : a ∈ dedupKeys t
      · simp [h, ih]
      · simp [h, ih, List.filter_append, List.filter_singleton, hpa']

theorem lookup_keyed_map (l : List String) (g : String → List PostmanItem) (k : String) :
    (l.map fun x => (x, g x)).lookup k = if k ∈ l then some (g k) else none := by
  induction l with
  | nil => simp [List.lookup]
  | cons a t ih =>
    by_cases h : k = a
    · subst h
      simp [List.lookup]
    · simp only [List.map_cons, List.lookup_cons, beq_eq_false_iff_ne.mpr h]
      rw [ih]
      simp [h]

theorem groupInsert_mem (l : List String) (g : String → List PostmanItem) (k : String)
    (it : PostmanItem) (hk : k ∈ l) (hnd : l.Nodup) :
    groupInsert (l.map fun x => (x, g x)) k it =
      l.map fun x => (x, g x ++ if x = k then [it] else []) := by
  induction l with
  | nil => cases hk
  | cons a t ih =>
    rcases List.nodup_cons.mp hnd with ⟨hat, hndt⟩
    by_cases h : a = k
    · subst h
      simp only [List.map_cons, groupInsert, beq_self_eq_true, if_pos, if_true]
      congr 1
      apply List.map_congr_left
      intro x hx
      have : x ≠ a := fun hxa => hat (hxa ▸ hx)
      simp [this]
    · have hkt : k ∈ t := by
        rcases List.mem_cons.mp hk with h' | h'
        · exact absurd h'.symm h
        · exact h'
      simp only [List.map_cons, groupInsert, beq_eq_false_iff_ne.mpr h, Bool.false_eq_true,
        if_false, ih hkt hndt]
      simp [h]

theorem groupInsert_not_mem (m : List (String × List PostmanItem)) (k : String)
    (it : PostmanItem) (hk : ∀ p ∈ m, p.1 ≠ k) :
    groupInsert m k it = m ++ [(k, [it])] := by
  induction m with
  | nil => simp [groupInsert]
  | cons a t ih =>
    obtain ⟨x, xs⟩ := a
    have hx : x ≠ k := hk (x, xs) (by simp)
    simp only [groupInsert, beq_eq_false_iff_ne.mpr hx, Bool.false_eq_true, if_false,
      List.cons_append]
    rw [ih]
    intro p hp
    exact hk p (List.mem_cons_of_mem _ hp)

theorem folderGroups_append (rs : List Request) (r : Request) :
    folderGroups (rs ++ [r]) =
      groupInsert (folderGroups rs) r.folderPath (exportRequestItem r) := by
  simp [folderGroups, List.foldl_append]

theorem folderGroups_eq (rs : List Request) :
    folderGroups rs =
      (dedupKeys (rs.map Request.folderPath)).map
        fun k => (k, folderGroupItems rs k) := by
  induction rs using List.reverseRecOn with
  | nil => simp [folderGroups, dedupKeys, folderGroupItems]
  | append_singleton t r ih =>
    rw [folderGroups_append, ih]
    simp only [List.map_append, List.map_singleton]
    rw [dedupKeys_append]
    by_cases h : r.folderPath ∈ dedupKeys (t.map Request.folderPath)
    · rw [if_pos (by simpa using h)]
      rw [groupInsert_mem _ _ _ _ h (nodup_dedupKeys _)]
      apply List.map_congr_left
      intro k hkmem
      simp only [folderGroupItems, List.filter_append, List.map_append]
      congr 2
      by_cases hk : k = r.folderPath
      · subst hk
        simp [List.filter_singleton]
      · have : (r.folderPath == k) = false :=
          beq_eq_false_iff_ne.mpr fun hh => hk hh.symm
        simp [List.filter_singleton, this, hk]
    · rw [if_neg (by simpa using h)]
      rw [groupInsert_not_mem]
      · rw [List.map_append]
        congr 1
        · apply List.map_congr_left
          intro k hkmem
          have hk : k ≠ r.folderPath := fun hh => h (hh ▸ hkmem)
          have hb : (r.folderPath == k) = false :=
            beq_eq_false_iff_ne.mpr fun hh => hk hh.symm
          simp [folderGroupItems, List.filter_append, List.filter_singleton, hb]
        · have hnil : t.filter (fun x => x.folderPath == r.folderPath) = [] := by
            apply List.filter_eq_nil_iff.mpr
            intro x hx
            intro hbeq
            apply h
            rw [mem_dedupKeys]
            exact (beq_iff_eq.mp hbeq) ▸ List.mem_map_of_mem Request.folderPath hx
          simp [folderGroupItems, List.filter_append, List.filter_singleton, hnil]
      · intro p hp
        rcases List.mem_map.mp hp with ⟨k, hkmem, hpk⟩
        intro hcontra
        apply h
        rw [← hpk] at hcontra
        simp only at hcontra
        exact hcontra ▸ hkmem

theorem filter_keyed_map (l : List String) (g : String → List PostmanItem)
    (pr : String → Bool) :
    ((l.map fun x => (x, g x)).filter fun p => pr p.1) =
      (l.filter pr).map fun x => (x, g x) := by
  induction l with
  | nil => simp
  | cons a t ih =>
    by_cases h : pr a <;> simp [List.filter_cons, h, ih]

theorem rebuildItems_eq (rs : List Request) :
    rebuildItems rs =
      folderGroupItems rs "" ++
        (distinctFolderPaths rs).map
          (fun k => PostmanItem.mk k "" (folderGroupItems rs k) none "") := by
  have hsplit : rebuildItems rs =
      lookupGroup (folderGroups rs) "" ++
        ((folderGroups rs).filter (fun p => p.1 != "")).map
          (fun p => PostmanItem.mk p.1 "" p.2 none "") := rfl
  rw [hsplit, folderGroups_eq]
  congr 1
  · unfold lookupGroup
    rw [lookup_keyed_map]
    by_cases h : "" ∈ dedupKeys (rs.map Request.folderPath)
    · simp [h]
    · simp only [if_neg h]
      have hnil : rs.filter (fun r => r.folderPath == "") = [] := by
        apply List.filter_eq_nil_iff.mpr
        intro x hx hbeq
        exact h ((mem_dedupKeys _ _).mpr
          ((beq_iff_eq.mp hbeq) ▸ List.mem_map_of_mem Request.folderPath hx))
      simp [folderGroupItems, hnil]
  · rw [filter_keyed_map (dedupKeys (rs.map Request.folderPath)) (folderGroupItems rs)
      (fun k => k != ""), List.map_map]
    have hd : distinctFolderPaths rs =
        (dedupKeys (rs.map Request.folderPath)).filter (fun k => k != "") := by
      unfold distinctFolderPaths
      rw [dedupKeys_filter]
    rw [hd]
    rfl

/-- C8: the export rebuild produces the empty-path group's leaves first and
then, for each distinct non-empty `folder_path` value in first-encounter
order, exactly one synthetic folder item named by that full path string
(not split on slashes), whose nested items are exactly the exported records
of that group; the distinct-path list has no duplicates, so each path
yields exactly one folder, and every folder sits after the root leaves. -/
theorem export_one_folder_per_distinct_path (rs : List Request) :
    rebuildItems rs =
      folderGroupItems rs "" ++
        (distinctFolderPaths rs).map
          (fun k => PostmanItem.mk k "" (folderGroupItems rs k) none "") ∧
    (distinctFolderPaths rs).Nodup :=
  ⟨rebuildItems_eq rs, nodup_dedupKeys _⟩

theorem urlRaw_normalize (u : Json) :
    urlRaw (Json.obj (normalizeRequestURL u)) = urlRaw u := by
  cases u with
  | str s =>
    by_cases hs : s = ""
    · simp [normalizeRequestURL, urlRaw, hs, List.lookup]
    · simp [normalizeRequestURL, urlRaw, hs, beq_eq_false_iff_ne.mpr hs, List.lookup]
  | null => simp [normalizeRequestURL, urlRaw, goUnmarshalMap, List.lookup]
  | bool b => simp [normalizeRequestURL, urlRaw, goUnmarshalMap, List.lookup]
  | num i => simp [normalizeRequestURL, urlRaw, goUnmarshalMap, List.lookup]
  | arr l => simp [normalizeRequestURL, urlRaw, goUnmarshalMap, List.lookup]
  | obj fields => simp [normalizeRequestURL, goUnmarshalMap]

theorem recordTriple_mk (cid : Nat) (n d p : String) (r : PostmanRequest) (pid : String) :
    recordTriple (mkRequestRecord cid n d p r pid) = (n, r.method, urlRaw r.url) := by
  simp [recordTriple, mkRequestRecord, urlRaw_normalize]

theorem docTriples_append (a b : List PostmanItem) :
    docTriples (a ++ b) = docTriples a ++ docTriples b := by
  induction a with
  | nil => simp [docTriples]
  | cons i t ih =>
    cases i with
    | mk n d ch rq id =>
      cases rq <;> simp [docTriples, ih, List.append_assoc]

theorem docTriples_of_emitted :
    ∀ (items : List PostmanItem) (cid : Nat) (p : String),
    noFolderRequests items = true →
    docTriples items = (emittedRequests items cid p).map recordTriple := by
  intro items cid p
  induction items, cid, p using emittedRequests.induct with
  | case1 cid p =>
    intro _
    simp [docTriples, emittedRequests]
  | case2 name desc c cs req pid rest cid p ihc ihr =>
    intro hf
    have hf3 : req.isNone = true ∧ noFolderRequests (c :: cs) = true ∧
        noFolderRequests rest = true := by
      simpa [noFolderRequests, Bool.and_eq_true, and_assoc] using hf
    obtain ⟨hreq, hfc, hfr⟩ := hf3
    have hreq' : req = none := Option.isNone_iff_eq_none.mp hreq
    subst hreq'
    simp only [docTriples, emittedRequests]
    rw [ihc hfc, ihr hfr]
    simp
  | case3 name desc req pid rest cid p ihr =>
    intro hf
    have hfr : noFolderRequests rest = true := by
      simp only [noFolderRequests] at hf
      exact hf
    cases req with
    | none =>
      simp only [docTriples, emittedRequests]
      rw [ihr hfr]
      simp [docTriples]
    | some r =>
      simp only [docTriples, emittedRequests]
      rw [ihr hfr]
      simp [docTriples, recordTriple_mk]

theorem docTriples_map_export (l : List Request) :
    docTriples (l.map exportRequestItem) = l.map recordTriple := by
  induction l with
  | nil => simp [docTriples]
  | cons r t ih =>
    simp [exportRequestItem, docTriples, recordTriple, ih]

theorem mem_docTriples_folders (rs : List Request) (ks : List String)
    (t : String × String × Option String) :
    t ∈ docTriples (ks.map fun k => PostmanItem.mk k "" (folderGroupItems rs k) none "") ↔
      ∃ k ∈ ks, t ∈ (rs.filter (fun r => r.folderPath == k)).map recordTriple := by
  induction ks with
  | nil => simp [docTriples]
  | cons a kt ih =>
    simp only [List.map_cons, docTriples, List.nil_append]
    rw [show docTriples (folderGroupItems rs a) =
        (rs.filter (fun r => r.folderPath == a)).map recordTriple from
      docTriples_map_export _]
    simp only [List.mem_append, ih]
    constructor
    · rintro (hmem | ⟨k, hk, hmem⟩)
      · exact ⟨a, by simp, hmem⟩
      · exact ⟨k, by simp [hk], hmem⟩
    · rintro ⟨k, hk, hmem⟩
      rcases List.mem_cons.mp hk with rfl | hk'
      · exact Or.inl hmem
      · exact Or.inr ⟨k, hk', hmem⟩

theorem leaves_noFolderRequests (l : List PostmanItem) (h : ∀ c ∈ l, c.item = []) :
    noFolderRequests l = true := by
  induction l with
  | nil => simp [noFolderRequests]
  | cons c t ih =>
    cases c with
    | mk n d ch rq id =>
      have hch : ch = [] := h (PostmanItem.mk n d ch rq id) (List.mem_cons_self _ _)
      subst hch
      simp only [noFolderRequests]
      exact ih fun c hc => h c (List.mem_cons_of_mem _ hc)

theorem all_noFolderRequests (l : List PostmanItem)
    (h : l.all (fun i =>
      i.item.isEmpty || (i.request.isNone && i.item.all (fun c => c.item.isEmpty))) = true) :
    noFolderRequests l = true := by
  induction l with
  | nil => simp [noFolderRequests]
  | cons i t ih =>
    rw [List.all_cons, Bool.and_eq_true] at h
    obtain ⟨hi, ht⟩ := h
    cases i with
    | mk n d ch rq id =>
      cases ch with
      | nil =>
        simp only [noFolderRequests]
        exact ih ht
      | cons c cs =>
        simp only [PostmanItem.item, PostmanItem.request, List.isEmpty_cons,
          Bool.false_or, Bool.and_eq_true] at hi
        obtain ⟨hrq, hleaves⟩ := hi
        have hrq' : rq = none := Option.isNone_iff_eq_none.mp hrq
        subst hrq'
        simp only [noFolderRequests, Bool.and_eq_true]
        refine ⟨⟨rfl, ?_⟩, ih ht⟩
        apply leaves_noFolderRequests
        intro x hx
        have := List.all_eq_true.mp hleaves x hx
        exact List.isEmpty_iff.mp (by simpa using this)

theorem fixture_noFolderRequests (pc : PostmanCollection)
    (h : threeLevelFixture pc = true) : noFolderRequests pc.item = true := by
  unfold threeLevelFixture at h
  rw [Bool.and_eq_true, Bool.and_eq_true] at h
  exact all_noFolderRequests pc.item h.1.1

/-- C2: for every document of the three-level fixture shape (each root node
a request leaf or a folder of leaves with no request of its own, at least
one folder holding two request leaves, at least one root request), the set
of (name, method, raw-URL) triples of the document exported from the
imported collection equals the set of those triples in the original
document; ordering may differ, set equality holds. -/
theorem roundtrip_preserves_triples (pc : PostmanCollection) (cid : Nat)
    (h : threeLevelFixture pc = true) :
    ∀ t, t ∈ docTriples
        (ExportPostmanCollection (importedCollection pc)
          (emittedRequests pc.item cid "")).item ↔
      t ∈ docTriples pc.item := by
  intro t
  rw [docTriples_of_emitted pc.item cid "" (fixture_noFolderRequests pc h)]
  simp only [export_rebuilds]
  rw [rebuildItems_eq, docTriples_append]
  rw [show docTriples (folderGroupItems (emittedRequests pc.item cid "") "") =
      ((emittedRequests pc.item cid "").filter
        (fun r => r.folderPath == "")).map recordTriple from docTriples_map_export _]
  rw [List.mem_append, mem_docTriples_folders]
  constructor
  · rintro (hmem | ⟨k, hk, hmem⟩)
    · rcases List.mem_map.mp hmem with ⟨r, hr, rfl⟩
      exact List.mem_map_of_mem _ (List.mem_of_mem_filter hr)
    · rcases List.mem_map.mp hmem with ⟨r, hr, rfl⟩
      exact List.mem_map_of_mem _ (List.mem_of_mem_filter hr)
  · intro hmem
    rcases List.mem_map.mp hmem with ⟨r, hr, rfl⟩
    by_cases hp : r.folderPath = ""
    · exact Or.inl (List.mem_map_of_mem _ (List.mem_filter.mpr ⟨hr, beq_iff_eq.mpr hp⟩))
    · refine Or.inr ⟨r.folderPath, ?_,
        List.mem_map_of_mem _ (List.mem_filter.mpr ⟨hr, beq_iff_eq.mpr rfl⟩)⟩
      unfold distinctFolderPaths
      rw [mem_dedupKeys]
      refine List.mem_filter.mpr ⟨List.mem_map_of_mem Request.folderPath hr, ?_⟩
      simpa using hp

theorem roundtrip_preserves_triples_witness :
    threeLevelFixture sampleDoc = true ∧
    (∀ t, t ∈ docTriples
        (ExportPostmanCollection (importedCollection sampleDoc)
          (emittedRequests sampleDoc.item 0 "")).item ↔
      t ∈ docTriples sampleDoc.item) :=
  ⟨by decide, roundtrip_preserves_triples sampleDoc 0 (by decide)⟩
